import Mathlib

/-!
Verification of the featured-project selection and rendering pipeline of the
`My-Portfolio` repository (`app.js` and its patched variant).

The JavaScript sources are shallowly embedded as pure Lean functions:

* repository records arriving from the GitHub API become the `Repo` structure;
  the `updated_at` ISO string is embedded post-parse as `updated_ms : Option Int`
  (`some ms` for `new Date(s).getTime() = ms`, `none` when the date is invalid
  and `getTime()` yields `NaN`);
* `Array.prototype.sort` (ES2019: a stable sort whose comparator result is
  coerced with `NaN ↦ +0`) is embedded as `List.mergeSort`, which is a stable
  merge sort, over a comparator returning `Option Int` (`none` models `NaN`);
* `fetch` outcomes are embedded as an explicit `HttpAttempt` value and the
  `throw`/`catch` flow of `fetchJSON` as `Except`;
* JS numbers are embedded as exact integers; the composite heuristic score
  `stars * 5 + getTime()/1000` is scaled by 1000 to the integer
  `stars * 5000 + ms`, which is order- and tie-equivalent.
-/

namespace Portfolio

/-- The configured GitHub user (`USER` in `app.js`). -/
def USER : String := "PoojithaYelkur"

/-- A repository record as consumed by the scripts.  `updated_ms` is the
embedded result of `new Date(r.updated_at).getTime()`: `some ms` when the
timestamp parses, `none` when it is invalid (`NaN`). -/
structure Repo where
  id : Nat
  name : String
  description : Option String := none
  language : Option String := none
  stargazers_count : Nat := 0
  homepage : Option String := none
  html_url : String := ""
  updated_ms : Option Int := none
  topics : List String := []
deriving DecidableEq

/-! ### Small JS string helpers -/

/-- Does the character list `l` start with `pat`?  (Helper for the embedding of
`String.prototype.includes`.) -/
def startsWithL : List Char → List Char → Bool
  | [], _ => true
  | _ :: _, [] => false
  | p :: ps, c :: cs => p == c && startsWithL ps cs

/-- Embedding of `String.prototype.includes`: does `l` contain `pat` as a
contiguous subsequence? -/
def containsL (pat : List Char) : List Char → Bool
  | [] => pat.isEmpty
  | c :: cs => startsWithL pat (c :: cs) || containsL pat cs

/-- `s.includes(pat)` on strings. -/
def strContains (s pat : String) : Bool := containsL pat.toList s.toList

/-- `s.toLowerCase()`, embedded character-wise (the sources only ever compare
ASCII names and topics). -/
def strLower (s : String) : String := ⟨s.toList.map Char.toLower⟩

/-! ### Comparators and the `Array.prototype.sort` model -/

/-- The composite heuristic score of `pickFeatured`,
`(stargazers_count * 5) + (new Date(updated_at).getTime() / 1000)`,
scaled by 1000 to stay in integers: `stars * 5000 + ms`.
`none` models the `NaN` score of a repository whose date does not parse. -/
def scoreOpt (r : Repo) : Option Int :=
  r.updated_ms.map (fun ms => 5000 * (r.stargazers_count : Int) + ms)

/-- The score with `NaN` read as `0`; meaningful whenever `updated_ms` parses. -/
def scoreD (r : Repo) : Int := (scoreOpt r).getD 0

/-- The comparator of the heuristic stage of `pickFeatured`:
`(a, b) => bScore - aScore`.  `none` models a `NaN` comparator result. -/
def cmpScore (a b : Repo) : Option Int :=
  match scoreOpt b, scoreOpt a with
  | some sb, some sa => some (sb - sa)
  | _, _ => none

/-- The comparator of the recency sort in `init`:
`(a, b) => new Date(b.updated_at) - new Date(a.updated_at)`. -/
def cmpRecency (a b : Repo) : Option Int :=
  match b.updated_ms, a.updated_ms with
  | some mb, some ma => some (mb - ma)
  | _, _ => none

/-- The boolean order corresponding to an ES2019 comparator: `a` may precede
`b` iff the coerced comparator value (`NaN ↦ +0`, per `SortCompare`) is `≤ 0`. -/
def jsLe (cmp : Repo → Repo → Option Int) (a b : Repo) : Bool :=
  decide ((cmp a b).getD 0 ≤ 0)

/-- Embedding of `Array.prototype.sort(cmp)` (ES2019): a stable sort with the
comparator's `NaN` results coerced to `+0`.  `List.mergeSort` is a stable
merge sort, so ties — including every comparison involving a `NaN` score —
keep their original relative order. -/
def jsSort (cmp : Repo → Repo → Option Int) (l : List Repo) : List Repo :=
  l.mergeSort (jsLe cmp)

/-! ### Featured selection (`pickFeatured`) -/

/-- Stage-1 predicate: `manual.includes(r.name.toLowerCase())` where
`manual = FEATURED.map(s => s.toLowerCase())`. -/
def manualMatch (manual : List String) (r : Repo) : Bool :=
  (manual.map strLower).contains (strLower r.name)

/-- Stage-2 predicate of `app.js`: the name contains `"portfolio-featured"`
(after lower-casing) or some topic does. -/
def topicNameMatchB (r : Repo) : Bool :=
  strContains (strLower r.name) "portfolio-featured" ||
    r.topics.any (fun t => strContains (strLower t) "portfolio-featured")

/-- `if (!featured.find(f => f.id === t.id)) featured.push(t)`. -/
def dedupPush (acc : List Repo) (t : Repo) : List Repo :=
  if acc.any (fun f => f.id == t.id) then acc else acc ++ [t]

/-- The topic/name stage of `app.js`: while fewer than three are selected,
push every topic/name match not already selected by id. -/
def topicStage (repos featured : List Repo) : List Repo :=
  if featured.length < 3 then (repos.filter topicNameMatchB).foldl dedupPush featured
  else featured

/-- The heuristic stage shared by both variants: while fewer than three are
selected, push the score-sorted candidates not already selected by id. -/
def heuristicStage (repos featured : List Repo) : List Repo :=
  if featured.length < 3 then
    (jsSort cmpScore repos).foldl
      (fun acc s => if 3 ≤ acc.length then acc else dedupPush acc s) featured
  else featured

/-- `pickFeatured` from `app.js` (three stages: manual override, topic/name
tag match, heuristic ranking, then `slice(0, 3)`), parametrised by the
`FEATURED` list. -/
def pickFeatured (manual : List String) (repos : List Repo) : List Repo :=
  (heuristicStage repos (topicStage repos (repos.filter (manualMatch manual)))).take 3

/-- `pickFeatured` from the patched variant (`part_000`): manual override then
heuristic ranking, with no topic/name stage.  Its comparator writes
`(a.stargazers_count || 0) * 5 + ...`; the `|| 0` guard is the identity here
because `stargazers_count` is always present as a `Nat` in the embedding, so
the comparator coincides with `cmpScore`. -/
def pickFeaturedV2 (manual : List String) (repos : List Repo) : List Repo :=
  (heuristicStage repos (repos.filter (manualMatch manual))).take 3

/-- The recency sort performed by `init`:
`repos.sort((a,b) => new Date(b.updated_at) - new Date(a.updated_at))`. -/
def sortByRecency (repos : List Repo) : List Repo := jsSort cmpRecency repos

/-! ### Fetch layer (`fetchJSON`, `fetchReadmeSnippet`) -/

/-- The observable outcome of one `fetch` call: either the promise rejected
(network-level failure) or an HTTP response with a status and a typed body. -/
inductive HttpAttempt (β : Type) where
  | networkFailure
  | response (status : Nat) (body : β)

/-- The error taxonomy of `fetchJSON`: the rejection propagated from `fetch`,
the dedicated `Error("rate_limited")`, or the generic
`Error("GitHub API error: <status>")` carrying the status. -/
inductive FetchErr where
  | networkFailed
  | rateLimited
  | apiError (status : Nat)
deriving DecidableEq

/-- `res.ok`: status in the inclusive range 200–299. -/
def resOk (status : Nat) : Bool := decide (200 ≤ status) && decide (status ≤ 299)

/-- Embedding of `fetchJSON`: 403 throws `rate_limited`, any other non-ok
status throws the generic error with its status, otherwise the parsed body is
returned. -/
def fetchJSON {β : Type} (attempt : HttpAttempt β) : Except FetchErr β :=
  match attempt with
  | .networkFailure => .error .networkFailed
  | .response status body =>
    if status == 403 then .error .rateLimited
    else if !resOk status then .error (.apiError status)
    else .ok body

/-- The body shape of the README endpoint: a JSON object whose `content` field
may be absent. -/
structure ReadmeDoc where
  content : Option String := none

/-! ### README snippet extraction -/

/-- The character class `[#_*`>~\-\[\]\(\)]` of the markdown-stripping regex,
written with character codes: `#` 35, `_` 95, `*` 42, backtick 96, `>` 62,
`~` 126, `-` 45, `[` 91, `]` 93, `(` 40, `)` 41. -/
def isMdStruct (c : Char) : Bool :=
  let n := c.toNat
  n == 35 || n == 95 || n == 42 || n == 96 || n == 62 || n == 126 ||
    n == 45 || n == 91 || n == 93 || n == 40 || n == 41

/-- The JS regex `\s` class (whitespace as seen by `replace(/\s+/g, " ")` and
`trim`). -/
def isJsWs (c : Char) : Bool :=
  let n := c.toNat
  n == 32 || n == 9 || n == 10 || n == 11 || n == 12 || n == 13 ||
    n == 160 || n == 5760 || (8192 ≤ n && n ≤ 8202) || n == 8232 ||
    n == 8233 || n == 8239 || n == 8287 || n == 12288 || n == 65279

/-- `replace(/\s+/g, " ")`: each maximal whitespace run becomes one space. -/
def collapseWs : List Char → List Char
  | [] => []
  | [c] => if isJsWs c then [' '] else [c]
  | c :: d :: rest =>
    if isJsWs c && isJsWs d then collapseWs (d :: rest)
    else (if isJsWs c then ' ' else c) :: collapseWs (d :: rest)

/-- `trim()`: remove leading and trailing whitespace. -/
def trimWs (l : List Char) : List Char :=
  ((l.dropWhile isJsWs).reverse.dropWhile isJsWs).reverse

/-- The cleaning pipeline applied to the decoded README text:
strip markdown structural characters (each becomes one space), collapse
whitespace runs, trim. -/
def cleanChars (l : List Char) : List Char :=
  trimWs (collapseWs (l.map (fun c => if isMdStruct c then ' ' else c)))

/-- `cleaned.slice(0, 200) + (cleaned.length > 200 ? "…" : "")` applied after
the cleaning pipeline.  (The patched variant writes the same computation as
`cleaned.length > 200 ? cleaned.slice(0,200) + "…" : cleaned`.) -/
def extractSnippet (decoded : String) : String :=
  let cleaned := cleanChars decoded.toList
  ⟨cleaned.take 200 ++ (if 200 < cleaned.length then [hellip] else [])⟩
where
  /-- The horizontal-ellipsis character appended on truncation. -/
  hellip : Char := Char.ofNat 8230

/-! ### `atob` (forgiving base64) -/

/-- The value of a base64 alphabet character, `none` for anything else. -/
def b64Val (c : Char) : Option Nat :=
  let n := c.toNat
  if 65 ≤ n && n ≤ 90 then some (n - 65)
  else if 97 ≤ n && n ≤ 122 then some (n - 71)
  else if 48 ≤ n && n ≤ 57 then some (n + 4)
  else if n == 43 then some 62
  else if n == 47 then some 63
  else none

/-- Decode a base64 character sequence into bytes; `none` on any invalid
character or a leftover length of one. -/
def b64Decode : List Char → Option (List Nat)
  | [] => some []
  | [_] => none
  | [a, b] => do
    let va ← b64Val a
    let vb ← b64Val b
    pure [va * 4 + vb / 16]
  | [a, b, c] => do
    let va ← b64Val a
    let vb ← b64Val b
    let vc ← b64Val c
    pure [va * 4 + vb / 16, (vb % 16) * 16 + vc / 4]
  | a :: b :: c :: d :: rest => do
    let va ← b64Val a
    let vb ← b64Val b
    let vc ← b64Val c
    let vd ← b64Val d
    let tail ← b64Decode rest
    pure ([va * 4 + vb / 16, (vb % 16) * 16 + vc / 4, (vc % 4) * 64 + vd] ++ tail)

/-- Strip up to two trailing `=` padding characters. -/
def dropB64Pad (cs : List Char) : List Char :=
  let r := cs.reverse
  let r := if r.headD ' ' == '=' then r.tail else r
  let r := if r.headD ' ' == '=' then r.tail else r
  r.reverse

/-- Embedding of `atob` (the forgiving-base64 decoder): strip ASCII
whitespace, handle padding, decode; `none` models the thrown
`InvalidCharacterError`.  Each decoded byte becomes one character of the
resulting binary string. -/
def atob (s : String) : Option String :=
  let cs := s.toList.filter (fun c =>
    !(c.toNat == 9 || c.toNat == 10 || c.toNat == 12 || c.toNat == 13 || c.toNat == 32))
  let cs := if cs.length % 4 == 0 then dropB64Pad cs else cs
  if cs.length % 4 == 1 then none
  else (b64Decode cs).map (fun bytes => ⟨bytes.map Char.ofNat⟩)

/-- Embedding of `fetchReadmeSnippet`: any error of the underlying request is
caught and yields `""`; a body without a truthy `content` field yields `""`;
otherwise the content has its newlines stripped, is base64-decoded (a decode
failure is likewise caught) and cleaned down to a snippet. -/
def fetchReadmeSnippet (attempt : HttpAttempt ReadmeDoc) : String :=
  match fetchJSON attempt with
  | .error _ => ""
  | .ok data =>
    match data.content with
    | none => ""
    | some content =>
      if content.isEmpty then ""
      else
        match atob ⟨content.toList.filter (fun c => c.toNat != 10)⟩ with
        | none => ""
        | some decoded => extractSnippet decoded

/-! ### Live-link resolution (`resolveLiveTarget`) -/

/-- Is `c` an ASCII letter? -/
def isAsciiAlpha (c : Char) : Bool :=
  (65 ≤ c.toNat && c.toNat ≤ 90) || (97 ≤ c.toNat && c.toNat ≤ 122)

/-- Is `c` an ASCII digit? -/
def isAsciiDigit (c : Char) : Bool := 48 ≤ c.toNat && c.toNat ≤ 57

/-- May `c` appear in a URL scheme after the first character? -/
def isSchemeChar (c : Char) : Bool :=
  isAsciiAlpha c || isAsciiDigit c || c.toNat == 43 || c.toNat == 45 || c.toNat == 46

/-- Is `c` a C0 control or space (stripped at both ends by the URL parser)? -/
def isC0OrSpace (c : Char) : Bool := c.toNat ≤ 32

/-- Simplified embedding of `new URL(s)` succeeding with protocol `http:` or
`https:` (the check `isValidHttpUrl` / `isValidUrl` of the sources): strip
tabs and newlines and surrounding C0-or-space characters, parse a scheme
`alpha (alphanum | + | - | .)* :`, require it to be `http` or `https`
case-insensitively, and require a nonempty host before the first `/`, `\`,
`?` or `#` (taking the part after the last `@`).  This models the WHATWG
parser only to the depth the sources observe. -/
def isValidHttpUrl (s : String) : Bool :=
  let cs := s.toList.filter (fun c => !(c.toNat == 9 || c.toNat == 10 || c.toNat == 13))
  let cs := (cs.dropWhile isC0OrSpace).reverse.dropWhile isC0OrSpace |>.reverse
  match cs with
  | [] => false
  | c :: _ =>
    if !isAsciiAlpha c then false
    else
      let scheme := (cs.takeWhile isSchemeChar).map Char.toLower
      let rest := cs.dropWhile isSchemeChar
      match rest with
      | [] => false
      | colon :: rest' =>
        if colon.toNat != 58 then false
        else if !(scheme == "http".toList || scheme == "https".toList) then false
        else
          let afterSlashes := rest'.dropWhile (fun c => c.toNat == 47 || c.toNat == 92)
          let authority := afterSlashes.takeWhile (fun c =>
            !(c.toNat == 47 || c.toNat == 92 || c.toNat == 63 || c.toNat == 35))
          let host := (authority.reverse.takeWhile (fun c => c.toNat != 64)).reverse
          !host.isEmpty

/-- Is `c` kept verbatim by `encodeURIComponent`?
(`A–Z a–z 0–9 - _ . ! ~ * ' ( )`.) -/
def isUriUnreserved (c : Char) : Bool :=
  isAsciiAlpha c || isAsciiDigit c || c.toNat == 45 || c.toNat == 95 ||
    c.toNat == 46 || c.toNat == 33 || c.toNat == 126 || c.toNat == 42 ||
    c.toNat == 39 || c.toNat == 40 || c.toNat == 41

/-- The UTF-8 bytes of the code point `n`. -/
def utf8Bytes (n : Nat) : List Nat :=
  if n < 128 then [n]
  else if n < 2048 then [192 + n / 64, 128 + n % 64]
  else if n < 65536 then [224 + n / 4096, 128 + n / 64 % 64, 128 + n % 64]
  else [240 + n / 262144, 128 + n / 4096 % 64, 128 + n / 64 % 64, 128 + n % 64]

/-- Upper-case hexadecimal digit. -/
def hexDigitU (n : Nat) : Char := Char.ofNat (if n < 10 then 48 + n else 55 + n)

/-- Percent-encode one character as `encodeURIComponent` does. -/
def pctEncodeChar (c : Char) : List Char :=
  if isUriUnreserved c then [c]
  else ((utf8Bytes c.toNat).map (fun b => ['%', hexDigitU (b / 16), hexDigitU (b % 16)])).flatten

/-- Embedding of `encodeURIComponent`. -/
def encodeURIComponent (s : String) : String :=
  ⟨(s.toList.map pctEncodeChar).flatten⟩

/-- `githubPagesFallback` from the patched variant:
`https://{USER}.github.io/{encodeURIComponent(repoName)}/`. -/
def githubPagesFallback (repoName : String) : String :=
  "https://" ++ USER ++ ".github.io/" ++ encodeURIComponent repoName ++ "/"

/-- Whether a resolved live link is the repository's own homepage or the
constructed GitHub-Pages guess. -/
inductive LinkFlag where
  | genuineDemo
  | fallbackPagesGuess
deriving DecidableEq

/-- A resolved live-link target with its provenance flag. -/
structure ResolvedLink where
  url : String
  flag : LinkFlag
deriving DecidableEq

/-- Embedding of the live-target resolution of the patched variant:
`const hasHomepage = repo.homepage && isValidUrl(repo.homepage);`
`const liveTarget = hasHomepage ? repo.homepage : githubPagesFallback(repo.name);`
(`repo.homepage` is truthy iff present and nonempty). -/
def resolveLiveTarget (r : Repo) : ResolvedLink :=
  match r.homepage with
  | some h =>
    if !h.isEmpty && isValidHttpUrl h then ⟨h, .genuineDemo⟩
    else ⟨githubPagesFallback r.name, .fallbackPagesGuess⟩
  | none => ⟨githubPagesFallback r.name, .fallbackPagesGuess⟩

/-! ### General lemmas about `List.merge` and `List.mergeSort` -/

/-- `List.merge` only consults the order on pairs drawn from its two inputs. -/
theorem merge_congr {α : Type _} {le le' : α → α → Bool} :
    ∀ {xs ys : List α}, (∀ a ∈ xs, ∀ b ∈ ys, le a b = le' a b) →
      List.merge xs ys le = List.merge xs ys le'
  | [], ys, _ => by simp
  | x :: xs, [], _ => by simp
  | x :: xs, y :: ys, h => by
    simp only [List.merge]
    rw [h x (List.mem_cons_self x xs) y (List.mem_cons_self y ys)]
    by_cases hxy : le' x y = true
    · simp only [hxy, if_true]
      rw [merge_congr (fun a ha b hb => h a (List.mem_cons_of_mem x ha) b hb)]
    · simp only [Bool.not_eq_true] at hxy
      simp only [hxy, Bool.false_eq_true, if_false]
      rw [merge_congr (fun a ha b hb => h a ha b (List.mem_cons_of_mem y hb))]
termination_by xs ys => xs.length + ys.length

/-- `List.mergeSort` only consults the order on pairs drawn from its input. -/
theorem mergeSort_congr {α : Type _} {le le' : α → α → Bool} :
    ∀ (l : List α), (∀ a ∈ l, ∀ b ∈ l, le a b = le' a b) →
      l.mergeSort le = l.mergeSort le'
  | [], _ => by simp
  | [a], _ => by simp
  | a :: b :: xs, h => by
    have hl1 : (List.splitInTwo ⟨a :: b :: xs, rfl⟩).1.1.length < xs.length + 1 + 1 := by
      simp [List.splitInTwo_fst]; omega
    have hl2 : (List.splitInTwo ⟨a :: b :: xs, rfl⟩).2.1.length < xs.length + 1 + 1 := by
      simp [List.splitInTwo_snd]; omega
    have hsub1 : ∀ x ∈ (List.splitInTwo ⟨a :: b :: xs, rfl⟩).1.1, x ∈ a :: b :: xs := by
      intro x hx
      simp only [List.splitInTwo_fst] at hx
      exact List.take_subset _ _ hx
    have hsub2 : ∀ x ∈ (List.splitInTwo ⟨a :: b :: xs, rfl⟩).2.1, x ∈ a :: b :: xs := by
      intro x hx
      simp only [List.splitInTwo_snd] at hx
      exact List.drop_subset _ _ hx
    rw [List.mergeSort, List.mergeSort]
    rw [mergeSort_congr (List.splitInTwo ⟨a :: b :: xs, rfl⟩).1.1
          (fun x hx y hy => h x (hsub1 x hx) y (hsub1 y hy)),
        mergeSort_congr (List.splitInTwo ⟨a :: b :: xs, rfl⟩).2.1
          (fun x hx y hy => h x (hsub2 x hx) y (hsub2 y hy)),
        merge_congr (fun x hx y hy =>
          h x (hsub1 x (List.mem_mergeSort.mp hx)) y (hsub2 y (List.mem_mergeSort.mp hy)))]
termination_by l => l.length

/-! ### Fetch classification (C5) and README error absorption (C6) -/

/-- A response either classifies to an error or is passed through unchanged. -/
theorem fetchJSON_response_cases {β : Type} (st : Nat) (b : β) :
    (∃ e, fetchJSON (.response st b) = .error e) ∨ fetchJSON (.response st b) = .ok b := by
  simp only [fetchJSON]
  by_cases h1 : (st == 403) = true
  · exact .inl ⟨.rateLimited, by simp [h1]⟩
  · by_cases h2 : resOk st = true
    · right
      simp [h1, h2]
    · left
      refine ⟨.apiError st, ?_⟩
      simp only [Bool.not_eq_true] at h1 h2
      simp [h1, h2]

/-- C5: `fetchJSON` classifies an HTTP 403 response as the dedicated
rate-limited error, distinct from every other failure; any other non-2xx
response is classified as the generic fetch failure carrying its status code
(e.g. HTTP 500 yields the generic failure, never the rate-limited one). -/
theorem claim_C5 {β : Type} (body : β) (status : Nat)
    (h403 : status ≠ 403) (hko : ¬(200 ≤ status ∧ status ≤ 299)) :
    fetchJSON (.response 403 body) = .error .rateLimited ∧
    fetchJSON (.response status body) = .error (.apiError status) ∧
    (∀ s : Nat, FetchErr.rateLimited ≠ FetchErr.apiError s) := by
  refine ⟨rfl, ?_, fun s => by simp⟩
  have h1 : (status == 403) = false := by simpa using h403
  have h2 : resOk status = false := by
    simp only [resOk, Bool.and_eq_false_iff, decide_eq_false_iff_not]
    omega
  simp [fetchJSON, h1, h2]

/-- Witness for C5: HTTP 500 is the generic fetch failure, HTTP 403 the
rate-limited one. -/
theorem claim_C5_witness :
    fetchJSON (.response 403 ()) = .error .rateLimited ∧
    fetchJSON (.response 500 ()) = .error (.apiError 500) ∧
    (∀ s : Nat, FetchErr.rateLimited ≠ FetchErr.apiError s) :=
  claim_C5 () 500 (by omega) (by omega)

/-- C6: `fetchReadmeSnippet` never propagates an error to its caller: it is a
total function, and each failure mode of the underlying request — the network
failure, any non-ok HTTP status (404, the rate-limited 403, ...) — as well as
a response without a `content` field yields the empty snippet. -/
theorem claim_C6 (status : Nat) (body : ReadmeDoc)
    (hko : ¬(200 ≤ status ∧ status ≤ 299)) :
    fetchReadmeSnippet .networkFailure = "" ∧
    fetchReadmeSnippet (.response status body) = "" ∧
    (∀ d : ReadmeDoc, d.content = none →
      ∀ st, fetchReadmeSnippet (.response st d) = "") := by
  refine ⟨rfl, ?_, ?_⟩
  · have h1 : (status == 403) = false ∨ (status == 403) = true := by
      cases status == 403 <;> simp
    rcases h1 with h1 | h1
    · have h2 : resOk status = false := by
        simp only [resOk, Bool.and_eq_false_iff, decide_eq_false_iff_not]
        omega
      simp [fetchReadmeSnippet, fetchJSON, h1, h2]
    · simp [fetchReadmeSnippet, fetchJSON, h1]
  · intro d hd st
    rcases fetchJSON_response_cases st d with ⟨e, he⟩ | he
    · simp [fetchReadmeSnippet, he]
    · simp [fetchReadmeSnippet, he, hd]

/-- Witness for C6: a 404, a 403 and a missing-content response each give the
empty snippet, and so does a network failure. -/
theorem claim_C6_witness :
    fetchReadmeSnippet .networkFailure = "" ∧
    fetchReadmeSnippet (.response 404 ⟨some "aGVsbG8="⟩) = "" ∧
    fetchReadmeSnippet (.response 403 ⟨some "aGVsbG8="⟩) = "" ∧
    fetchReadmeSnippet (.response 200 ⟨none⟩) = "" :=
  ⟨(claim_C6 404 ⟨some "aGVsbG8="⟩ (by omega)).1,
   (claim_C6 404 ⟨some "aGVsbG8="⟩ (by omega)).2.1,
   (claim_C6 403 ⟨some "aGVsbG8="⟩ (by omega)).2.1,
   (claim_C6 404 ⟨some "aGVsbG8="⟩ (by omega)).2.2 ⟨none⟩ rfl 200⟩

/-! ### Live-target resolution (C2) -/

/-- A syntactically valid URL is in particular nonempty. -/
theorem isEmpty_false_of_valid {h : String} (hv : isValidHttpUrl h = true) :
    h.isEmpty = false := by
  cases he : h.isEmpty
  · rfl
  · have : h = "" := (String.isEmpty_iff h).mp he
    subst this
    exact absurd hv (by decide)

/-- C2: `resolveLiveTarget` is pure and total (a plain function of the
repository value, no I/O, no exception), returns the homepage flagged
genuine-demo iff the homepage is present and a syntactically valid http(s)
URL, and otherwise returns the constructed GitHub-Pages fallback URL
`https://{USER}.github.io/{encodeURIComponent(name)}/` flagged as a guess. -/
theorem claim_C2 (r : Repo) :
    ((resolveLiveTarget r).flag = .genuineDemo ↔
      ∃ h, r.homepage = some h ∧ isValidHttpUrl h = true) ∧
    (∀ h, r.homepage = some h → isValidHttpUrl h = true →
      resolveLiveTarget r = ⟨h, .genuineDemo⟩) ∧
    ((resolveLiveTarget r).flag = .fallbackPagesGuess →
      (resolveLiveTarget r).url =
        "https://" ++ USER ++ ".github.io/" ++ encodeURIComponent r.name ++ "/") := by
  cases hh : r.homepage with
  | none =>
    refine ⟨?_, ?_, ?_⟩
    · simp [resolveLiveTarget, hh]
    · intro h hcontra
      simp [hh] at hcontra
    · intro
      simp [resolveLiveTarget, hh, githubPagesFallback]
  | some h =>
    by_cases hv : isValidHttpUrl h = true
    · have hne : h.isEmpty = false := isEmpty_false_of_valid hv
      have hres : resolveLiveTarget r = ⟨h, .genuineDemo⟩ := by
        simp [resolveLiveTarget, hh, hne, hv]
      refine ⟨?_, ?_, ?_⟩
      · rw [hres]
        exact ⟨fun _ => ⟨h, rfl, hv⟩, fun _ => rfl⟩
      · intro h' hh' hv'
        injection hh' with he'
        subst he'
        exact hres
      · intro hflag
        rw [hres] at hflag
        simp at hflag
    · have hres : resolveLiveTarget r = ⟨githubPagesFallback r.name, .fallbackPagesGuess⟩ := by
        simp only [Bool.not_eq_true] at hv
        simp [resolveLiveTarget, hh, hv]
      refine ⟨?_, ?_, ?_⟩
      · rw [hres]
        constructor
        · intro hcontra
          simp at hcontra
        · rintro ⟨h', hh', hv'⟩
          injection hh' with he'
          subst he'
          exact absurd hv' hv
      · intro h' hh' hv'
        injection hh' with he'
        subst he'
        exact absurd hv' hv
      · intro
        rw [hres]
        rfl

/-- Witness for C2: a repository with a valid homepage resolves to it as a
genuine demo; one with an `ftp:` homepage resolves to the Pages fallback. -/
theorem claim_C2_witness :
    resolveLiveTarget { id := 1, name := "demo", homepage := some "https://example.com/x" } =
      ⟨"https://example.com/x", .genuineDemo⟩ ∧
    (resolveLiveTarget { id := 2, name := "My App", homepage := some "ftp://bad.example" }).url =
      "https://" ++ USER ++ ".github.io/" ++ encodeURIComponent "My App" ++ "/" :=
  ⟨(claim_C2 _).2.1 "https://example.com/x" rfl (by decide),
   (claim_C2 { id := 2, name := "My App", homepage := some "ftp://bad.example" }).2.2 (by decide)⟩

/-! ### Snippet cleaning (C8) -/

/-- Characters produced by `collapseWs` are the space it inserts or characters
of its input. -/
theorem mem_collapseWs : ∀ (l : List Char), ∀ c ∈ collapseWs l, c = ' ' ∨ c ∈ l
  | [] => by simp [collapseWs]
  | [d] => by
    intro c hc
    by_cases hw : isJsWs d = true
    · simp [collapseWs, hw] at hc
      exact .inl hc
    · simp only [Bool.not_eq_true] at hw
      simp [collapseWs, hw] at hc
      simp [hc]
  | a :: b :: rest => by
    intro c hc
    by_cases hab : (isJsWs a && isJsWs b) = true
    · simp only [collapseWs, hab, if_true] at hc
      rcases mem_collapseWs (b :: rest) c hc with h | h
      · exact .inl h
      · exact .inr (List.mem_cons_of_mem a h)
    · simp only [Bool.not_eq_true] at hab
      simp only [collapseWs, hab, Bool.false_eq_true, if_false, List.mem_cons] at hc
      rcases hc with h | h
      · by_cases ha : isJsWs a = true
        · simp [ha] at h
          exact .inl h
        · simp only [Bool.not_eq_true] at ha
          simp [ha] at h
          simp [h]
      · rcases mem_collapseWs (b :: rest) c h with h' | h'
        · exact .inl h'
        · exact .inr (List.mem_cons_of_mem a h')

/-- `trimWs` only drops characters. -/
theorem mem_trimWs {l : List Char} {c : Char} (hc : c ∈ trimWs l) : c ∈ l := by
  unfold trimWs at hc
  rw [List.mem_reverse] at hc
  have h1 := (List.dropWhile_sublist (l := (l.dropWhile isJsWs).reverse) isJsWs).subset hc
  rw [List.mem_reverse] at h1
  exact (List.dropWhile_sublist (l := l) isJsWs).subset h1

/-- `trimWs l` is a contiguous piece of `l`. -/
theorem trimWs_contiguous (l : List Char) : trimWs l <:+: l := by
  have h2 : trimWs l <+: l.dropWhile isJsWs := by
    have hx : ((l.dropWhile isJsWs).reverse.dropWhile isJsWs).reverse.reverse <:+
        (l.dropWhile isJsWs).reverse := by
      rw [List.reverse_reverse]
      exact List.dropWhile_suffix _
    exact List.reverse_suffix.mp hx
  exact h2.isInfix.trans (List.dropWhile_suffix isJsWs).isInfix

/-- No markdown structural character survives the cleaning pipeline. -/
theorem not_struct_cleanChars (l : List Char) :
    ∀ c ∈ cleanChars l, isMdStruct c = false := by
  intro c hc
  have h1 : c ∈ collapseWs (l.map (fun c => if isMdStruct c then ' ' else c)) :=
    mem_trimWs hc
  rcases mem_collapseWs _ c h1 with h | h
  · subst h
    decide
  · rw [List.mem_map] at h
    obtain ⟨d, _, hd⟩ := h
    by_cases hs : isMdStruct d = true
    · rw [← hd, hs, if_pos rfl]
      decide
    · simp only [Bool.not_eq_true] at hs
      rw [← hd, hs]
      simp [hs]

/-- The head of `collapseWs (d :: rest)` exists and has the same
whitespace status as `d`. -/
theorem head_status_collapseWs :
    ∀ (d : Char) (rest : List Char),
      ∃ h t, collapseWs (d :: rest) = h :: t ∧ isJsWs h = isJsWs d
  | d, [] => by
    by_cases hw : isJsWs d = true
    · exact ⟨' ', [], by simp [collapseWs, hw], by rw [hw]; decide⟩
    · simp only [Bool.not_eq_true] at hw
      exact ⟨d, [], by simp [collapseWs, hw], rfl⟩
  | d, e :: rest => by
    by_cases hde : (isJsWs d && isJsWs e) = true
    · obtain ⟨h, t, heq, hws⟩ := head_status_collapseWs e rest
      rw [Bool.and_eq_true] at hde
      exact ⟨h, t, by simp [collapseWs, hde.1, hde.2, heq],
        by rw [hws, hde.1, hde.2]⟩
    · refine ⟨if isJsWs d then ' ' else d, collapseWs (e :: rest), ?_, ?_⟩
      · simp only [Bool.not_eq_true] at hde
        simp [collapseWs, hde]
      · by_cases hd : isJsWs d = true
        · rw [if_pos hd, hd]
          decide
        · simp only [Bool.not_eq_true] at hd
          simp [hd]

/-- After `collapseWs` no two adjacent characters are both whitespace. -/
theorem chain_collapseWs :
    ∀ (l : List Char),
      (collapseWs l).Chain' (fun a b => ¬(isJsWs a = true ∧ isJsWs b = true))
  | [] => by simp [collapseWs]
  | [c] => by
    by_cases hw : isJsWs c = true
    · simp [collapseWs, hw]
    · simp only [Bool.not_eq_true] at hw
      simp [collapseWs, hw]
  | a :: b :: rest => by
    by_cases hab : (isJsWs a && isJsWs b) = true
    · rw [Bool.and_eq_true] at hab
      simp only [collapseWs, hab.1, hab.2, Bool.and_self, if_true]
      exact chain_collapseWs (b :: rest)
    · have IH := chain_collapseWs (b :: rest)
      obtain ⟨h, t, heq, hws⟩ := head_status_collapseWs b rest
      simp only [Bool.not_eq_true, Bool.and_eq_false_iff] at hab
      have hstep : collapseWs (a :: b :: rest) =
          (if isJsWs a then ' ' else a) :: collapseWs (b :: rest) := by
        simp only [collapseWs]
        rw [if_neg]
        simp only [Bool.and_eq_true, not_and]
        intro h1 h2
        rcases hab with h' | h' <;> simp [h1, h2] at h'
      rw [hstep, heq]
      rw [heq] at IH
      refine List.Chain'.cons ?_ IH
      intro ⟨hca, hch⟩
      rw [hws] at hch
      by_cases ha : isJsWs a = true
      · rcases hab with h' | h'
        · exact absurd ha (by simp [h'])
        · rw [h'] at hch
          cases hch
      · rw [if_neg (by simp_all)] at hca
        exact ha hca

/-- If a prefix has a head, the larger list has the same head. -/
theorem head?_of_prefix {α : Type _} {p q : List α} (h : p <+: q) {c : α}
    (hc : p.head? = some c) : q.head? = some c := by
  obtain ⟨t, rfl⟩ := h
  cases p with
  | nil => cases hc
  | cons a p =>
    injection hc with h'
    subst h'
    rfl

/-- The trimmed text starts with a non-whitespace character. -/
theorem head_trimWs_not_ws {l : List Char} {c : Char}
    (hc : (trimWs l).head? = some c) : isJsWs c = false := by
  have hpre : trimWs l <+: l.dropWhile isJsWs := by
    have hx : ((l.dropWhile isJsWs).reverse.dropWhile isJsWs).reverse.reverse <:+
        (l.dropWhile isJsWs).reverse := by
      rw [List.reverse_reverse]
      exact List.dropWhile_suffix _
    exact List.reverse_suffix.mp hx
  have h1 : (l.dropWhile isJsWs).head? = some c := head?_of_prefix hpre hc
  have h2 := List.head?_dropWhile_not isJsWs l
  rw [h1] at h2
  exact h2

/-- The trimmed text ends with a non-whitespace character. -/
theorem getLast_trimWs_not_ws {l : List Char} {c : Char}
    (hc : (trimWs l).getLast? = some c) : isJsWs c = false := by
  unfold trimWs at hc
  rw [List.getLast?_reverse] at hc
  have h2 := List.head?_dropWhile_not isJsWs (l.dropWhile isJsWs).reverse
  rw [hc] at h2
  exact h2

/-- C8: the snippet extraction replaces each markdown structural character by
a space, collapses whitespace runs, trims, truncates to 200 characters with a
single appended ellipsis exactly when truncation occurred — so the result has
at most 201 characters — and maps empty input to empty output. -/
theorem claim_C8 (s : String) :
    (extractSnippet s).length ≤ 201 ∧
    extractSnippet "" = "" ∧
    ((cleanChars s.toList).length ≤ 200 → extractSnippet s = ⟨cleanChars s.toList⟩) ∧
    (200 < (cleanChars s.toList).length →
      extractSnippet s = ⟨(cleanChars s.toList).take 200 ++ [extractSnippet.hellip]⟩ ∧
      (extractSnippet s).length = 201) ∧
    (∀ c ∈ cleanChars s.toList, isMdStruct c = false) ∧
    List.Chain' (fun a b => ¬(isJsWs a = true ∧ isJsWs b = true)) (cleanChars s.toList) ∧
    (∀ c, (cleanChars s.toList).head? = some c → isJsWs c = false) ∧
    (∀ c, (cleanChars s.toList).getLast? = some c → isJsWs c = false) := by
  refine ⟨?_, rfl, ?_, ?_, not_struct_cleanChars _, ?_, ?_, ?_⟩
  · show ((cleanChars s.toList).take 200 ++
      (if 200 < (cleanChars s.toList).length then [extractSnippet.hellip] else [])).length ≤ 201
    rw [List.length_append]
    have h1 : ((cleanChars s.toList).take 200).length ≤ 200 := by
      rw [List.length_take]
      omega
    by_cases h : 200 < (cleanChars s.toList).length
    · rw [if_pos h]
      simp only [List.length_cons, List.length_nil]
      omega
    · rw [if_neg h]
      simp only [List.length_nil]
      omega
  · intro h
    show String.mk ((cleanChars s.toList).take 200 ++
      (if 200 < (cleanChars s.toList).length then [extractSnippet.hellip] else [])) = _
    rw [if_neg (by omega), List.append_nil, List.take_of_length_le h]
  · intro h
    constructor
    · show String.mk ((cleanChars s.toList).take 200 ++
        (if 200 < (cleanChars s.toList).length then [extractSnippet.hellip] else [])) = _
      rw [if_pos h]
    · show ((cleanChars s.toList).take 200 ++
        (if 200 < (cleanChars s.toList).length then [extractSnippet.hellip] else [])).length = 201
      rw [if_pos h, List.length_append, List.length_take]
      simp only [List.length_cons, List.length_nil]
      omega
  · exact List.Chain'.infix (chain_collapseWs _) (trimWs_contiguous _)
  · intro c hc
    exact head_trimWs_not_ws hc
  · intro c hc
    exact getLast_trimWs_not_ws hc

/-- Witness for C8 at the spec's scenario input. -/
theorem claim_C8_witness :
    (cleanChars ("# Title\n\n**bold** text").toList).length ≤ 200 ∧
    extractSnippet "# Title\n\n**bold** text" = ⟨cleanChars ("# Title\n\n**bold** text").toList⟩ ∧
    extractSnippet "# Title\n\n**bold** text" = "Title bold text" :=
  ⟨by decide, (claim_C8 "# Title\n\n**bold** text").2.2.1 (by decide), by decide⟩

/-! ### Structure of the `pickFeatured` stages (C3, C4) -/

/-- Any fold whose step only ever appends leaves its accumulator as a prefix. -/
theorem foldl_extends (g : List Repo → Repo → List Repo)
    (hg : ∀ acc x, ∃ u, g acc x = acc ++ u) :
    ∀ (l : List Repo) (acc : List Repo), ∃ t, l.foldl g acc = acc ++ t
  | [], acc => ⟨[], by simp⟩
  | x :: l, acc => by
    obtain ⟨u, hu⟩ := hg acc x
    obtain ⟨t, ht⟩ := foldl_extends g hg l (g acc x)
    exact ⟨u ++ t, by rw [List.foldl_cons, ht, hu, List.append_assoc]⟩

/-- `dedupPush` only ever appends. -/
theorem dedupPush_extends (acc : List Repo) (x : Repo) :
    ∃ u, dedupPush acc x = acc ++ u := by
  unfold dedupPush
  by_cases h : acc.any (fun f => f.id == x.id) = true
  · exact ⟨[], by simp [h]⟩
  · simp only [Bool.not_eq_true] at h
    exact ⟨[x], by simp [h]⟩

/-- The guarded heuristic-fill step only ever appends. -/
theorem fillStep_extends (acc : List Repo) (x : Repo) :
    ∃ u, (if 3 ≤ acc.length then acc else dedupPush acc x) = acc ++ u := by
  by_cases h : 3 ≤ acc.length
  · exact ⟨[], by simp [h]⟩
  · rw [if_neg h]
    exact dedupPush_extends acc x

/-- Once the selection holds three entries, the heuristic fill adds nothing. -/
theorem fill_stops :
    ∀ (l : List Repo) (acc : List Repo), 3 ≤ acc.length →
      l.foldl (fun acc s => if 3 ≤ acc.length then acc else dedupPush acc s) acc = acc
  | [], _, _ => rfl
  | x :: l, acc, h => by
    rw [List.foldl_cons, if_pos h]
    exact fill_stops l acc h

/-- With pairwise-distinct ids, the heuristic fill starting from `acc` takes
the next `3 - acc.length` candidates in order. -/
theorem foldl_fill :
    ∀ (l : List Repo) (acc : List Repo), ((acc ++ l).map Repo.id).Nodup →
      l.foldl (fun acc s => if 3 ≤ acc.length then acc else dedupPush acc s) acc =
        acc ++ l.take (3 - acc.length)
  | [], acc, _ => by simp
  | x :: l, acc, h => by
    by_cases h3 : 3 ≤ acc.length
    · rw [fill_stops _ _ h3]
      have : 3 - acc.length = 0 := by omega
      rw [this, List.take_zero, List.append_nil]
    · have hdisj : List.Disjoint (acc.map Repo.id) ((x :: l).map Repo.id) := by
        rw [List.map_append] at h
        exact List.disjoint_of_nodup_append h
      have hx : acc.any (fun f => f.id == x.id) = false := by
        rw [Bool.eq_false_iff]
        intro hc
        rw [List.any_eq_true] at hc
        obtain ⟨f, hf, hfx⟩ := hc
        rw [beq_iff_eq] at hfx
        exact hdisj (List.mem_map_of_mem Repo.id hf)
          (by rw [hfx]; exact List.mem_map_of_mem Repo.id (List.mem_cons_self x l))
      rw [List.foldl_cons, if_neg h3]
      rw [show dedupPush acc x = acc ++ [x] by simp [dedupPush, hx]]
      rw [foldl_fill l (acc ++ [x]) (by simpa using h)]
      rw [List.append_assoc, List.length_append, List.length_singleton]
      have hsucc : 3 - acc.length = (3 - (acc.length + 1)) + 1 := by omega
      rw [hsucc, List.take_succ_cons, List.singleton_append]

/-- With pairwise-distinct ids in the pushed list, the dedup-push fold appends
exactly the pushed entries whose id is not yet selected, in order. -/
theorem foldl_dedupPush_of_nodup :
    ∀ (l : List Repo) (acc : List Repo), (l.map Repo.id).Nodup →
      l.foldl dedupPush acc =
        acc ++ l.filter (fun t => !acc.any (fun f => f.id == t.id))
  | [], acc, _ => by simp
  | x :: l, acc, h => by
    rw [List.map_cons, List.nodup_cons] at h
    have hxl : ∀ t ∈ l, (x.id == t.id) = false := by
      intro t ht
      rw [beq_eq_false_iff_ne]
      intro hc
      exact h.1 (hc ▸ List.mem_map_of_mem Repo.id ht)
    rw [List.foldl_cons]
    by_cases hx : acc.any (fun f => f.id == x.id) = true
    · rw [show dedupPush acc x = acc by simp [dedupPush, hx]]
      rw [foldl_dedupPush_of_nodup l acc h.2]
      congr 1
      rw [List.filter_cons, if_neg (by simp [hx])]
    · simp only [Bool.not_eq_true] at hx
      rw [show dedupPush acc x = acc ++ [x] by simp [dedupPush, hx]]
      rw [foldl_dedupPush_of_nodup l (acc ++ [x]) h.2]
      rw [List.filter_cons, if_pos (by simp [hx]), List.append_assoc, List.singleton_append]
      congr 2
      apply List.filter_congr
      intro t ht
      simp only [List.any_append, List.any_cons, List.any_nil, Bool.or_false]
      rw [hxl t ht, Bool.or_false]

/-- `pickFeatured` always begins with an (at most three long) prefix of later
stages appended to the manual picks. -/
theorem topicStage_extends (repos featured : List Repo) :
    ∃ t, topicStage repos featured = featured ++ t := by
  unfold topicStage
  by_cases h : featured.length < 3
  · rw [if_pos h]
    exact foldl_extends dedupPush dedupPush_extends _ featured
  · rw [if_neg h]
    exact ⟨[], by rw [List.append_nil]⟩

theorem heuristicStage_extends (repos featured : List Repo) :
    ∃ t, heuristicStage repos featured = featured ++ t := by
  unfold heuristicStage
  by_cases h : featured.length < 3
  · rw [if_pos h]
    exact foldl_extends _ fillStep_extends _ featured
  · rw [if_neg h]
    exact ⟨[], by rw [List.append_nil]⟩

theorem pickFeatured_extends (manual : List String) (repos : List Repo) :
    ∃ t, pickFeatured manual repos = ((repos.filter (manualMatch manual)) ++ t).take 3 := by
  unfold pickFeatured
  obtain ⟨t2, ht2⟩ := topicStage_extends repos (repos.filter (manualMatch manual))
  obtain ⟨t3, ht3⟩ := heuristicStage_extends repos (repos.filter (manualMatch manual) ++ t2)
  rw [ht2, ht3, List.append_assoc]
  exact ⟨t2 ++ t3, rfl⟩

/-- C4: repositories matching the manual-override list come first in
`pickFeatured`'s result, in input order (the `filter` keeps input order),
regardless of their heuristic score. -/
theorem claim_C4 (manual : List String) (repos : List Repo) :
    ((repos.filter (manualMatch manual)).take 3) <+: pickFeatured manual repos := by
  obtain ⟨t, ht⟩ := pickFeatured_extends manual repos
  rw [ht, List.take_append_eq_append_take]
  exact List.prefix_append _ _

/-- C3: when the manual stage leaves fewer than three picks, the topic/name
matches (names or topics containing `"portfolio-featured"` case-insensitively)
are appended after the manual picks, in input order, skipping already-selected
ids, without displacing earlier picks. -/
theorem claim_C3 (manual : List String) (repos : List Repo)
    (hids : (repos.map Repo.id).Nodup)
    (hlt : (repos.filter (manualMatch manual)).length < 3) :
    ((repos.filter (manualMatch manual) ++
        (repos.filter topicNameMatchB).filter
          (fun t => !(repos.filter (manualMatch manual)).any (fun f => f.id == t.id))).take 3)
      <+: pickFeatured manual repos := by
  have htopids : ((repos.filter topicNameMatchB).map Repo.id).Nodup :=
    ((List.filter_sublist repos).map Repo.id).nodup hids
  unfold pickFeatured
  rw [show topicStage repos (repos.filter (manualMatch manual)) =
      repos.filter (manualMatch manual) ++
        (repos.filter topicNameMatchB).filter
          (fun t => !(repos.filter (manualMatch manual)).any (fun f => f.id == t.id)) by
    unfold topicStage
    rw [if_pos hlt]
    exact foldl_dedupPush_of_nodup _ _ htopids]
  obtain ⟨t3, ht3⟩ := heuristicStage_extends repos _
  rw [ht3]
  have hgen : ∀ (A t : List Repo), A.take 3 <+: (A ++ t).take 3 := by
    intro A t
    rw [List.take_append_eq_append_take]
    exact List.prefix_append _ _
  exact hgen _ t3

/-- Witness for C3: one topic-tagged repository joins the selection after the
(empty) manual stage. -/
theorem claim_C3_witness :
    ((([{ id := 1, name := "portfolio-featured-app" },
        { id := 2, name := "other" }] : List Repo).filter (manualMatch []) ++
      (([{ id := 1, name := "portfolio-featured-app" },
        { id := 2, name := "other" }] : List Repo).filter topicNameMatchB).filter
        (fun t => !(([{ id := 1, name := "portfolio-featured-app" },
          { id := 2, name := "other" }] : List Repo).filter (manualMatch [])).any
            (fun f => f.id == t.id))).take 3)
      <+: pickFeatured []
        [{ id := 1, name := "portfolio-featured-app" }, { id := 2, name := "other" }] :=
  claim_C3 [] [{ id := 1, name := "portfolio-featured-app" }, { id := 2, name := "other" }]
    (by decide) (by decide)

/-! ### The heuristic ranking (C1) -/

/-- The effective total order of the heuristic comparator on repositories
whose dates parse: descending score. -/
def scoreLe (a b : Repo) : Bool := decide (scoreD b ≤ scoreD a)

theorem scoreLe_trans (a b c : Repo) :
    scoreLe a b → scoreLe b c → scoreLe a c := by
  simp only [scoreLe, decide_eq_true_eq]
  omega

theorem scoreLe_total (a b : Repo) : scoreLe a b || scoreLe b a := by
  simp only [scoreLe, Bool.or_eq_true, decide_eq_true_eq]
  omega

/-- On repositories whose dates parse, the JS comparator order coincides with
the descending-score order. -/
theorem jsLe_cmpScore_eq_scoreLe {a b : Repo}
    (ha : a.updated_ms ≠ none) (hb : b.updated_ms ≠ none) :
    jsLe cmpScore a b = scoreLe a b := by
  rcases ha' : a.updated_ms with _ | ma
  · exact absurd ha' ha
  rcases hb' : b.updated_ms with _ | mb
  · exact absurd hb' hb
  have hsa : scoreOpt a = some (5000 * (a.stargazers_count : Int) + ma) := by
    rw [scoreOpt, ha']
    rfl
  have hsb : scoreOpt b = some (5000 * (b.stargazers_count : Int) + mb) := by
    rw [scoreOpt, hb']
    rfl
  rw [jsLe, scoreLe, cmpScore, hsa, hsb]
  simp only [scoreD, hsa, hsb, Option.getD_some]
  rw [decide_eq_decide]
  omega

/-- Under the hypotheses of the heuristic stage, `jsSort` is the stable
descending-score merge sort. -/
theorem jsSort_eq_mergeSort_scoreLe (repos : List Repo)
    (hms : ∀ r ∈ repos, r.updated_ms ≠ none) :
    jsSort cmpScore repos = repos.mergeSort scoreLe := by
  exact mergeSort_congr repos
    (fun a ha b hb => jsLe_cmpScore_eq_scoreLe (hms a ha) (hms b hb))

open List

/-- Two distinct members of a list appear in one of the two orders. -/
theorem pair_sublist_total {α : Type _} {a b : α} :
    ∀ {l : List α}, a ∈ l → b ∈ l → a ≠ b → [a, b] <+ l ∨ [b, a] <+ l := by
  intro l
  induction l with
  | nil => intro ha; cases ha
  | cons x xs ih =>
    intro ha hb hne
    rcases List.mem_cons.mp ha with rfl | ha'
    · have hb' : b ∈ xs := by
        rcases List.mem_cons.mp hb with rfl | hb'
        · exact absurd rfl hne
        · exact hb'
      exact .inl (List.Sublist.cons₂ a (List.singleton_sublist.mpr hb'))
    · rcases List.mem_cons.mp hb with rfl | hb'
      · exact .inr (List.Sublist.cons₂ b (List.singleton_sublist.mpr ha'))
      · rcases ih ha' hb' hne with h | h
        · exact .inl (h.cons x)
        · exact .inr (h.cons x)

/-- In a duplicate-free list, a pair cannot occur in both orders. -/
theorem sublist_pair_antisymm {α : Type _} {a b : α} :
    ∀ {l : List α}, l.Nodup → [a, b] <+ l → [b, a] <+ l → a = b := by
  intro l
  induction l with
  | nil =>
    intro _ h1
    have := List.sublist_nil.mp h1
    cases this
  | cons x xs ih =>
    intro hnd h1 h2
    rw [List.nodup_cons] at hnd
    rcases List.sublist_cons_iff.mp h1 with h1' | ⟨r1, hr1, hr1'⟩
    · rcases List.sublist_cons_iff.mp h2 with h2' | ⟨r2, hr2, hr2'⟩
      · exact ih hnd.2 h1' h2'
      · -- b = x, and from [a,b] <+ xs we get b ∈ xs, contradicting x ∉ xs
        injection hr2 with hbx hr2''
        subst hbx
        exact absurd (h1'.subset (by simp)) hnd.1
    · -- a = x, and r1 = [b] <+ xs so b ∈ xs
      injection hr1 with hax hr1''
      subst hax
      subst hr1''
      rcases List.sublist_cons_iff.mp h2 with h2' | ⟨r2, hr2, hr2'⟩
      · exact absurd (h2'.subset (by simp)) hnd.1
      · injection hr2 with hbx hr2''
        subst hr2''
        exact hbx.symm

/-- A pair-sublist of `P ++ D` whose two members lie in `P` is a sublist of
`P`, provided `P ++ D` has no duplicates. -/
theorem pair_sublist_of_append {α : Type _} {a b : α} {P D : List α}
    (hnd : (P ++ D).Nodup) (ha : a ∈ P) (hb : b ∈ P)
    (h : [a, b] <+ P ++ D) : [a, b] <+ P := by
  have hdisj : List.Disjoint P D := List.disjoint_of_nodup_append hnd
  rcases List.sublist_append_iff.mp h with ⟨l₁, l₂, heq, h₁, h₂⟩
  match l₁, heq with
  | [], heq =>
    rw [List.nil_append] at heq
    subst heq
    exact absurd (h₂.subset (by simp)) (fun hc => hdisj ha hc)
  | [x], heq =>
    injection heq with hx heq'
    subst hx
    subst heq'
    exact absurd (h₂.subset (by simp)) (fun hc => hdisj hb hc)
  | x :: y :: rest, heq =>
    injection heq with hx heq'
    injection heq' with hy heq''
    subst hx
    subst hy
    have : rest ++ l₂ = [] := heq''.symm
    rcases List.append_eq_nil.mp this with ⟨hrest, -⟩
    subst hrest
    exact h₁

/-- Under C1's hypotheses `pickFeatured` is the 3-prefix of the stable
descending-score sort. -/
theorem pickFeatured_eq_sorted_take (manual : List String) (repos : List Repo)
    (hids : (repos.map Repo.id).Nodup)
    (hman : ∀ r ∈ repos, manualMatch manual r = false)
    (htop : ∀ r ∈ repos, topicNameMatchB r = false)
    (hms : ∀ r ∈ repos, r.updated_ms ≠ none) :
    pickFeatured manual repos = (repos.mergeSort scoreLe).take 3 := by
  have hf1 : repos.filter (manualMatch manual) = [] :=
    List.filter_eq_nil_iff.mpr (by intro a ha; simp [hman a ha])
  have htf : repos.filter topicNameMatchB = [] :=
    List.filter_eq_nil_iff.mpr (by intro a ha; simp [htop a ha])
  have hperm : (repos.mergeSort scoreLe).map Repo.id ~ repos.map Repo.id :=
    (List.mergeSort_perm repos scoreLe).map Repo.id
  have hSids : ((repos.mergeSort scoreLe).map Repo.id).Nodup := hperm.symm.nodup hids
  unfold pickFeatured
  rw [hf1]
  rw [show topicStage repos [] = [] by
    unfold topicStage
    rw [if_pos (by simp), htf]
    rfl]
  unfold heuristicStage
  rw [if_pos (by simp)]
  rw [jsSort_eq_mergeSort_scoreLe repos hms]
  rw [foldl_fill (repos.mergeSort scoreLe) [] (by simpa using hSids)]
  rw [List.nil_append]
  rw [show (3 : Nat) - List.length ([] : List Repo) = 3 by simp]
  rw [List.take_take]
  rfl

/-- C1: for a list of at least three repositories with pairwise-distinct ids,
no manual-override match, no topic/name tag match, and parseable dates,
`pickFeatured` returns exactly three repositories of the input, ordered by
descending composite score (`stars*5 + updatedAtEpochSeconds`, scaled), with
ties broken by original input order: a tied pair keeps its input order, and
any repository left out scores no higher than every selected one — on a tie
the selected one occurs earlier in the input. -/
theorem claim_C1 (manual : List String) (repos : List Repo)
    (hlen : 3 ≤ repos.length)
    (hids : (repos.map Repo.id).Nodup)
    (hman : ∀ r ∈ repos, manualMatch manual r = false)
    (htop : ∀ r ∈ repos, topicNameMatchB r = false)
    (hms : ∀ r ∈ repos, r.updated_ms ≠ none) :
    (pickFeatured manual repos).length = 3 ∧
    (∀ r ∈ pickFeatured manual repos, r ∈ repos) ∧
    (pickFeatured manual repos).Pairwise (fun a b => scoreD b ≤ scoreD a) ∧
    (∀ a ∈ pickFeatured manual repos, ∀ b ∈ pickFeatured manual repos,
      scoreD a = scoreD b → [a, b] <+ repos → [a, b] <+ pickFeatured manual repos) ∧
    (∀ r ∈ repos, r ∉ pickFeatured manual repos →
      ∀ f ∈ pickFeatured manual repos,
        scoreD r ≤ scoreD f ∧ (scoreD r = scoreD f → [f, r] <+ repos)) := by
  have hres : pickFeatured manual repos = (repos.mergeSort scoreLe).take 3 :=
    pickFeatured_eq_sorted_take manual repos hids hman htop hms
  have hperm : repos.mergeSort scoreLe ~ repos := List.mergeSort_perm repos scoreLe
  have hrnd : repos.Nodup := hids.of_map
  have hSnd : (repos.mergeSort scoreLe).Nodup := hperm.symm.nodup hrnd
  have hsorted : (repos.mergeSort scoreLe).Pairwise (fun a b => scoreLe a b) :=
    List.sorted_mergeSort scoreLe_trans scoreLe_total repos
  have hcross : ∀ f ∈ (repos.mergeSort scoreLe).take 3,
      ∀ d ∈ (repos.mergeSort scoreLe).drop 3, scoreLe f d = true := by
    have h := hsorted
    rw [← List.take_append_drop 3 (repos.mergeSort scoreLe)] at h
    exact (List.pairwise_append.mp h).2.2
  refine ⟨?_, ?_, ?_, ?_, ?_⟩
  · rw [hres, List.length_take, List.length_mergeSort]
    omega
  · intro r hr
    rw [hres] at hr
    exact hperm.subset (List.take_subset 3 _ hr)
  · rw [hres]
    exact (List.Pairwise.sublist (List.take_sublist 3 _) hsorted).imp
      (fun h => by simpa [scoreLe] using h)
  · intro a ha b hb htie hab
    rw [hres] at ha hb ⊢
    have hle : scoreLe a b = true := by
      simp only [scoreLe, decide_eq_true_eq]
      omega
    have habS : [a, b] <+ repos.mergeSort scoreLe :=
      List.pair_sublist_mergeSort scoreLe_trans scoreLe_total hle hab
    refine pair_sublist_of_append (D := (repos.mergeSort scoreLe).drop 3) ?_ ha hb ?_
    · rw [List.take_append_drop]
      exact hSnd
    · rw [List.take_append_drop]
      exact habS
  · intro r hr hnotin f hf
    rw [hres] at hnotin hf
    have hrS : r ∈ repos.mergeSort scoreLe := hperm.mem_iff.mpr hr
    have hrd : r ∈ (repos.mergeSort scoreLe).drop 3 := by
      rw [← List.take_append_drop 3 (repos.mergeSort scoreLe)] at hrS
      exact (List.mem_append.mp hrS).resolve_left hnotin
    have hlefr : scoreLe f r = true := hcross f hf r hrd
    constructor
    · simpa [scoreLe] using hlefr
    · intro htie
      have hne : f ≠ r := by
        intro h
        exact hnotin (h ▸ hf)
      have hfrepos : f ∈ repos := hperm.subset (List.take_subset 3 _ hf)
      rcases pair_sublist_total hfrepos hr hne with h | h
      · exact h
      · have hlerf : scoreLe r f = true := by
          simp only [scoreLe, decide_eq_true_eq]
          omega
        have h1 : [r, f] <+ repos.mergeSort scoreLe :=
          List.pair_sublist_mergeSort scoreLe_trans scoreLe_total hlerf h
        have h2 : [f, r] <+ repos.mergeSort scoreLe := by
          rw [← List.take_append_drop 3 (repos.mergeSort scoreLe)]
          exact List.Sublist.append (List.singleton_sublist.mpr hf)
            (List.singleton_sublist.mpr hrd)
        exact absurd (sublist_pair_antisymm hSnd h2 h1) hne

/-- Witness for C1 on a concrete three-element list with distinct scores. -/
theorem claim_C1_witness :
    (pickFeatured []
      [{ id := 1, name := "a", stargazers_count := 3, updated_ms := some 0 },
       { id := 2, name := "b", stargazers_count := 2, updated_ms := some 0 },
       { id := 3, name := "c", stargazers_count := 1, updated_ms := some 0 }]).length = 3 ∧
    (∀ r ∈ pickFeatured []
      [{ id := 1, name := "a", stargazers_count := 3, updated_ms := some 0 },
       { id := 2, name := "b", stargazers_count := 2, updated_ms := some 0 },
       { id := 3, name := "c", stargazers_count := 1, updated_ms := some 0 }],
      r ∈ [{ id := 1, name := "a", stargazers_count := 3, updated_ms := some 0 },
       { id := 2, name := "b", stargazers_count := 2, updated_ms := some 0 },
       { id := 3, name := "c", stargazers_count := 1, updated_ms := some 0 }]) :=
  ⟨(claim_C1 [] _ (by decide) (by decide) (by decide) (by decide) (by decide)).1,
   (claim_C1 [] _ (by decide) (by decide) (by decide) (by decide) (by decide)).2.1⟩

/-! ### Unparseable dates (C7) -/

/-- Counterexample to C7 as stated: a repository whose `updatedAt` does not
parse is NOT treated as least-recent.  Its comparator results are `NaN`,
which ES2019 coerces to `+0`, so the stable sort keeps `bad` in front of the
much fresher `good` instead of moving it to the end as "least-recent" would
demand. -/
theorem claim_C7_counterexample :
    sortByRecency
      [{ id := 1, name := "bad", updated_ms := none },
       { id := 2, name := "good", updated_ms := some 1700000000000 }] =
      [{ id := 1, name := "bad", updated_ms := none },
       { id := 2, name := "good", updated_ms := some 1700000000000 }] ∧
    sortByRecency
      [{ id := 1, name := "bad", updated_ms := none },
       { id := 2, name := "good", updated_ms := some 1700000000000 }] ≠
      [{ id := 2, name := "good", updated_ms := some 1700000000000 },
       { id := 1, name := "bad", updated_ms := none }] := by
  have h : sortByRecency
      [{ id := 1, name := "bad", updated_ms := none },
       { id := 2, name := "good", updated_ms := some 1700000000000 }] =
      [{ id := 1, name := "bad", updated_ms := none },
       { id := 2, name := "good", updated_ms := some 1700000000000 }] := by
    unfold sortByRecency jsSort
    exact List.mergeSort_of_sorted (by decide)
  refine ⟨h, ?_⟩
  rw [h]
  decide

/-- C7 amended: an unparseable `updatedAt` never causes an error — both the
recency sort and the heuristic sort return a permutation of their input — but
the repository is not treated as least-recent: every comparison involving it
yields `NaN`, which is coerced to `+0`, so it compares as a TIE with every
other repository rather than ranking below them.  (Its final position is then
whatever the sort does with ties; because the `NaN` comparator is not
transitive, no relative-order guarantee is claimed.) -/
theorem claim_C7_amended (a b : Repo) (ha : a.updated_ms = none) (l : List Repo) :
    (cmpRecency a b).getD 0 = 0 ∧ (cmpRecency b a).getD 0 = 0 ∧
    jsLe cmpRecency a b = true ∧ jsLe cmpRecency b a = true ∧
    scoreOpt a = none ∧
    (cmpScore a b).getD 0 = 0 ∧ (cmpScore b a).getD 0 = 0 ∧
    sortByRecency l ~ l ∧ jsSort cmpScore l ~ l := by
  have h1 : cmpRecency a b = none := by
    rw [cmpRecency, ha]
    rcases b.updated_ms with _ | mb <;> rfl
  have h2 : cmpRecency b a = none := by
    rw [cmpRecency, ha]
  have hs : scoreOpt a = none := by
    rw [scoreOpt, ha]
    rfl
  have h3 : cmpScore a b = none := by
    rw [cmpScore, hs]
    rcases scoreOpt b with _ | sb <;> rfl
  have h4 : cmpScore b a = none := by
    rw [cmpScore, hs]
  exact ⟨by rw [h1]; rfl, by rw [h2]; rfl, by rw [jsLe, h1]; rfl,
    by rw [jsLe, h2]; rfl, hs, by rw [h3]; rfl, by rw [h4]; rfl,
    List.mergeSort_perm l _, List.mergeSort_perm l _⟩

/-- Witness for the amended C7. -/
theorem claim_C7_amended_witness :
    (cmpRecency { id := 1, name := "bad", updated_ms := none }
      { id := 2, name := "good", updated_ms := some 1700000000000 }).getD 0 = 0 ∧
    (cmpRecency { id := 2, name := "good", updated_ms := some 1700000000000 }
      { id := 1, name := "bad", updated_ms := none }).getD 0 = 0 ∧
    jsLe cmpRecency { id := 1, name := "bad", updated_ms := none }
      { id := 2, name := "good", updated_ms := some 1700000000000 } = true ∧
    jsLe cmpRecency { id := 2, name := "good", updated_ms := some 1700000000000 }
      { id := 1, name := "bad", updated_ms := none } = true ∧
    scoreOpt { id := 1, name := "bad", updated_ms := none } = none ∧
    (cmpScore { id := 1, name := "bad", updated_ms := none }
      { id := 2, name := "good", updated_ms := some 1700000000000 }).getD 0 = 0 ∧
    (cmpScore { id := 2, name := "good", updated_ms := some 1700000000000 }
      { id := 1, name := "bad", updated_ms := none }).getD 0 = 0 ∧
    sortByRecency [{ id := 1, name := "bad", updated_ms := none }] ~
      [{ id := 1, name := "bad", updated_ms := none }] ∧
    jsSort cmpScore [{ id := 1, name := "bad", updated_ms := none }] ~
      [{ id := 1, name := "bad", updated_ms := none }] :=
  claim_C7_amended { id := 1, name := "bad", updated_ms := none }
    { id := 2, name := "good", updated_ms := some 1700000000000 } rfl
    [{ id := 1, name := "bad", updated_ms := none }]

/-! ### Variant equivalence (C9) -/

/-- Counterexample to C9: the two `pickFeatured` variants disagree, because
only the `app.js` variant has the topic/name tag stage.  On a list whose
lowest-scored repository is named `portfolio-featured-app`, the `app.js`
variant selects it first while the patched variant drops it entirely. -/
theorem claim_C9_counterexample :
    pickFeatured []
      [{ id := 2, name := "b1", stargazers_count := 100, updated_ms := some 0 },
       { id := 3, name := "b2", stargazers_count := 90, updated_ms := some 0 },
       { id := 4, name := "b3", stargazers_count := 80, updated_ms := some 0 },
       { id := 1, name := "portfolio-featured-app", stargazers_count := 0,
         updated_ms := some 0 }] ≠
    pickFeaturedV2 []
      [{ id := 2, name := "b1", stargazers_count := 100, updated_ms := some 0 },
       { id := 3, name := "b2", stargazers_count := 90, updated_ms := some 0 },
       { id := 4, name := "b3", stargazers_count := 80, updated_ms := some 0 },
       { id := 1, name := "portfolio-featured-app", stargazers_count := 0,
         updated_ms := some 0 }] := by
  have hs : List.mergeSort
      [{ id := 2, name := "b1", stargazers_count := 100, updated_ms := some 0 },
       { id := 3, name := "b2", stargazers_count := 90, updated_ms := some 0 },
       { id := 4, name := "b3", stargazers_count := 80, updated_ms := some 0 },
       { id := 1, name := "portfolio-featured-app", stargazers_count := 0,
         updated_ms := some 0 }] (jsLe cmpScore) =
      [{ id := 2, name := "b1", stargazers_count := 100, updated_ms := some 0 },
       { id := 3, name := "b2", stargazers_count := 90, updated_ms := some 0 },
       { id := 4, name := "b3", stargazers_count := 80, updated_ms := some 0 },
       { id := 1, name := "portfolio-featured-app", stargazers_count := 0,
         updated_ms := some 0 }] :=
    List.mergeSort_of_sorted (by decide)
  unfold pickFeatured pickFeaturedV2 topicStage heuristicStage jsSort
  rw [hs]
  decide

/-- C9 amended: the two variants implement the same pipeline exactly on the
inputs where the topic/name stage is inert — for every repository list with
no topic/name tag match (and any manual list), they return the same ordered
sequence. -/
theorem claim_C9_amended (manual : List String) (repos : List Repo)
    (h : ∀ r ∈ repos, topicNameMatchB r = false) :
    pickFeatured manual repos = pickFeaturedV2 manual repos := by
  have htf : repos.filter topicNameMatchB = [] :=
    List.filter_eq_nil_iff.mpr (by intro a ha; simp [h a ha])
  unfold pickFeatured pickFeaturedV2
  rw [show topicStage repos (repos.filter (manualMatch manual)) =
      repos.filter (manualMatch manual) by
    unfold topicStage
    rw [htf]
    split <;> rfl]

/-- Witness for the amended C9. -/
theorem claim_C9_amended_witness :
    pickFeatured ["x"]
      [{ id := 1, name := "alpha", stargazers_count := 1, updated_ms := some 0 }] =
    pickFeaturedV2 ["x"]
      [{ id := 1, name := "alpha", stargazers_count := 1, updated_ms := some 0 }] :=
  claim_C9_amended ["x"]
    [{ id := 1, name := "alpha", stargazers_count := 1, updated_ms := some 0 }]
    (by decide)

/-! ### Mutation model for the frame property (C10)

JS arrays are mutable objects; to state that `pickFeatured` does not modify
its input array, the arrays are held in an explicit store (`Heap`) indexed by
references.  `filter`, the spread `[...repos]` and `slice` allocate fresh
arrays; `.sort()` overwrites the array it is called on; `featured.push`
overwrites the `featured` array (a skipped push is embedded as writing back
the unchanged value, which is the same store). -/

/-- A store of JS arrays, addressed by index. -/
abbrev Heap := List (List Repo)

/-- Read the array at reference `i`. -/
def heapGet (h : Heap) (i : Nat) : List Repo := h.getD i []

/-- Overwrite the array at reference `i`. -/
def heapSet (h : Heap) (i : Nat) (xs : List Repo) : Heap := h.set i xs

/-- Embedding of `pickFeatured` over the explicit store: the input array
lives at `reposRef`; the result array's reference is returned with the final
store. -/
def pickFeaturedHeap (manual : List String) (h0 : Heap) (reposRef : Nat) : Heap × Nat :=
  let featRef := h0.length
  let h1 := h0 ++ [(heapGet h0 reposRef).filter (manualMatch manual)]
  let h2 := if (heapGet h1 featRef).length < 3 then
      let h2a := h1 ++ [(heapGet h1 reposRef).filter topicNameMatchB]
      (heapGet h2a h1.length).foldl
        (fun h t => heapSet h featRef (dedupPush (heapGet h featRef) t)) h2a
    else h1
  let h3 := if (heapGet h2 featRef).length < 3 then
      let h3a := h2 ++ [heapGet h2 reposRef]
      let h3b := heapSet h3a h2.length (jsSort cmpScore (heapGet h3a h2.length))
      (heapGet h3b h2.length).foldl
        (fun h s => heapSet h featRef
          (if 3 ≤ (heapGet h featRef).length then heapGet h featRef
           else dedupPush (heapGet h featRef) s)) h3b
    else h2
  (h3 ++ [(heapGet h3 featRef).take 3], h3.length)

theorem heapGet_set_self : ∀ (h : Heap) (j : Nat) (v : List Repo), j < h.length →
    heapGet (heapSet h j v) j = v
  | [], j, v, hj => absurd hj (by simp)
  | x :: h, 0, v, _ => rfl
  | x :: h, j + 1, v, hj =>
    heapGet_set_self h j v (by simpa using hj)

theorem heapGet_set_ne : ∀ (h : Heap) (i j : Nat) (v : List Repo), i ≠ j →
    heapGet (heapSet h j v) i = heapGet h i
  | [], _, _, _, _ => rfl
  | x :: h, 0, 0, v, hij => absurd rfl hij
  | x :: h, 0, j + 1, v, _ => rfl
  | x :: h, i + 1, 0, v, _ => rfl
  | x :: h, i + 1, j + 1, v, hij =>
    heapGet_set_ne h i j v (by omega)

theorem set_heapGet_self : ∀ (h : Heap) (j : Nat), j < h.length →
    heapSet h j (heapGet h j) = h
  | [], j, hj => absurd hj (by simp)
  | x :: h, 0, _ => rfl
  | x :: h, j + 1, hj => by
    show x :: heapSet h j (heapGet h j) = x :: h
    rw [set_heapGet_self h j (by simpa using hj)]

/-- A fold whose step rewrites only reference `j` acts like the pure fold on
the array stored at `j`. -/
theorem heapFoldl (g : List Repo → Repo → List Repo) (j : Nat) :
    ∀ (l : List Repo) (h : Heap), j < h.length →
      l.foldl (fun hh t => heapSet hh j (g (heapGet hh j) t)) h =
        heapSet h j (l.foldl g (heapGet h j))
  | [], h, hj => (set_heapGet_self h j hj).symm
  | t :: l, h, hj => by
    rw [List.foldl_cons, List.foldl_cons]
    rw [heapFoldl g j l (heapSet h j (g (heapGet h j) t))
      (by simpa [heapSet] using hj)]
    rw [heapGet_set_self h j _ hj]
    show (h.set j _).set j _ = _
    rw [List.set_set]
    rfl

theorem heapGet_cons_zero (x : List Repo) (h : Heap) : heapGet (x :: h) 0 = x := rfl

theorem heapGet_cons_succ (x : List Repo) (h : Heap) (n : Nat) :
    heapGet (x :: h) (n + 1) = heapGet h n := rfl

theorem heapGet_cons_one (x : List Repo) (h : Heap) : heapGet (x :: h) 1 = heapGet h 0 := rfl

theorem heapGet_cons_two (x : List Repo) (h : Heap) : heapGet (x :: h) 2 = heapGet h 1 := rfl

theorem heapGet_cons_three (x : List Repo) (h : Heap) : heapGet (x :: h) 3 = heapGet h 2 := rfl

theorem heapSet_cons_zero (x : List Repo) (h : Heap) (v : List Repo) :
    heapSet (x :: h) 0 v = v :: h := rfl

theorem heapSet_cons_succ (x : List Repo) (h : Heap) (n : Nat) (v : List Repo) :
    heapSet (x :: h) (n + 1) v = x :: heapSet h n v := rfl

theorem heapSet_cons_one (x : List Repo) (h : Heap) (v : List Repo) :
    heapSet (x :: h) 1 v = x :: heapSet h 0 v := rfl

theorem heapSet_cons_two (x : List Repo) (h : Heap) (v : List Repo) :
    heapSet (x :: h) 2 v = x :: heapSet h 1 v := rfl

theorem heapSet_cons_three (x : List Repo) (h : Heap) (v : List Repo) :
    heapSet (x :: h) 3 v = x :: heapSet h 2 v := rfl

theorem heapFoldl_dedup (j : Nat) (l : List Repo) (h : Heap) (hj : j < h.length) :
    l.foldl (fun hh t => heapSet hh j (dedupPush (heapGet hh j) t)) h =
      heapSet h j (l.foldl dedupPush (heapGet h j)) :=
  heapFoldl dedupPush j l h hj

theorem heapFoldl_fill (j : Nat) (l : List Repo) (h : Heap) (hj : j < h.length) :
    l.foldl (fun hh s => heapSet hh j
      (if 3 ≤ (heapGet hh j).length then heapGet hh j
       else dedupPush (heapGet hh j) s)) h =
      heapSet h j (l.foldl
        (fun acc s => if 3 ≤ acc.length then acc else dedupPush acc s) (heapGet h j)) :=
  heapFoldl (fun acc s => if 3 ≤ acc.length then acc else dedupPush acc s) j l h hj

set_option maxHeartbeats 1000000 in
/-- C10: `pickFeatured` does not modify its input repository array.  In the
explicit-store embedding the input array (reference 0) holds the same
elements in the same order after the call — the heuristic stage sorts a
fresh copy (`[...repos]`) in place, never the input — and the returned
result array agrees with the pure `pickFeatured`. -/
theorem claim_C10 (manual : List String) (repos : List Repo) :
    heapGet (pickFeaturedHeap manual [repos] 0).1 0 = repos ∧
    heapGet (pickFeaturedHeap manual [repos] 0).1 (pickFeaturedHeap manual [repos] 0).2 =
      pickFeatured manual repos := by
  unfold pickFeaturedHeap
  simp only [List.cons_append, List.nil_append, List.length_cons, List.length_nil,
    Nat.zero_add, heapGet_cons_zero, heapGet_cons_succ, heapGet_cons_one,
    heapGet_cons_two, heapGet_cons_three, heapSet_cons_zero, heapSet_cons_succ,
    heapSet_cons_one, heapSet_cons_two, heapSet_cons_three]
  unfold pickFeatured topicStage heuristicStage
  by_cases c1 : (repos.filter (manualMatch manual)).length < 3
  · rw [if_pos c1, if_pos c1, heapFoldl_dedup 1 _ _ (by simp)]
    simp only [List.cons_append, List.nil_append, List.length_cons, List.length_nil,
      Nat.zero_add, heapGet_cons_zero, heapGet_cons_succ, heapGet_cons_one,
      heapGet_cons_two, heapGet_cons_three, heapSet_cons_zero, heapSet_cons_succ,
      heapSet_cons_one, heapSet_cons_two, heapSet_cons_three]
    by_cases c2 : (List.foldl dedupPush (List.filter (manualMatch manual) repos)
        (List.filter topicNameMatchB repos)).length < 3
    · rw [if_pos c2, if_pos c2, heapFoldl_fill 1 _ _ (by simp)]
      simp only [List.cons_append, List.nil_append, List.length_cons, List.length_nil,
        Nat.zero_add, heapGet_cons_zero, heapGet_cons_succ, heapGet_cons_one,
        heapGet_cons_two, heapGet_cons_three, heapSet_cons_zero, heapSet_cons_succ,
        heapSet_cons_one, heapSet_cons_two, heapSet_cons_three]
      exact ⟨trivial, trivial⟩
    · rw [if_neg c2, if_neg c2]
      simp only [List.cons_append, List.nil_append, List.length_cons, List.length_nil,
        Nat.zero_add, heapGet_cons_zero, heapGet_cons_succ, heapGet_cons_one,
        heapGet_cons_two, heapGet_cons_three, heapSet_cons_zero, heapSet_cons_succ,
        heapSet_cons_one, heapSet_cons_two, heapSet_cons_three]
      exact ⟨trivial, trivial⟩
  · rw [if_neg c1, if_neg c1]
    simp only [List.cons_append, List.nil_append, List.length_cons, List.length_nil,
      Nat.zero_add, heapGet_cons_zero, heapGet_cons_succ, heapGet_cons_one,
      heapGet_cons_two, heapGet_cons_three, heapSet_cons_zero, heapSet_cons_succ,
      heapSet_cons_one, heapSet_cons_two, heapSet_cons_three]
    rw [if_neg c1, if_neg c1]
    simp only [List.cons_append, List.nil_append, List.length_cons, List.length_nil,
      Nat.zero_add, heapGet_cons_zero, heapGet_cons_succ, heapGet_cons_one,
      heapGet_cons_two, heapGet_cons_three, heapSet_cons_zero, heapSet_cons_succ,
      heapSet_cons_one, heapSet_cons_two, heapSet_cons_three]
    exact ⟨trivial, trivial⟩

end Portfolio
